import Mathlib

/-!
Shallow embedding of the contribution-aggregation core of
`git-activity-tracer` (TypeScript), together with proofs of the
specification's testable properties.

Embedded units:
* the `Contribution` value type (`src/types.ts`);
* the deduplicator (`src/lib/services/contributionDeduplicator.ts`):
  `makeKey`, `isBaseBranch`, `preferContribution`,
  `deduplicateContributions`, with the JavaScript `Map` modelled as an
  insertion-ordered association list;
* the cache-store merge step (`saveCache` in
  `src/lib/services/cacheManager.ts`);
* the report generator (`src/lib/services/reportGenerator.ts`):
  `fetchAndMergeContributions`, `enrichContributionsWithProjectIds`,
  `generateReport`, with `Promise.allSettled` modelled on lists of
  `Except` outcomes;
* the GitHub connector's commit extraction
  (`extractCommitContributions` / `fetchPaginatedCommits`,
  `src/connectors/github.ts`, the variant carrying the `userLogin`
  author filter);
* the GitLab connector's push-event extraction
  (`extractPushEventContributions`).

JavaScript builtins external to the repository (`Date.parse`,
`new Date(x).getTime()`, the network fetches) are passed in as explicit
function parameters; JavaScript truthiness of optional strings/numbers
is modelled by `truthy` / `truthyInt`.
-/

namespace GitActivityTracer


/-- Contribution type tag: `'commit' | 'pr' | 'review'` from `src/types.ts`. -/
inductive ContributionType where
  | commit
  | pr
  | review
deriving DecidableEq, Repr

/-- String rendering used by template literals such as
`` `${contribution.type}|...` ``. -/
def ContributionType.render : ContributionType → String
  | .commit => "commit"
  | .pr => "pr"
  | .review => "review"

/-- Canonical contribution record from `src/types.ts`; optional
fields are `Option`, `projectId` is attached only by enrichment. -/
structure Contribution where
  type : ContributionType
  timestamp : String
  text : Option String := none
  url : Option String := none
  repository : Option String := none
  target : Option String := none
  projectId : Option String := none
deriving DecidableEq, Repr

/-- JavaScript truthiness of an optional string: `undefined` and the
empty string are falsy. -/
def truthy : Option String → Bool
  | none => false
  | some s => s ≠ ""

/-- Rendering of `x ?? ''` for an optional string. -/
def orEmpty : Option String → String
  | none => ""
  | some s => s

/-- Key function `makeKey` from
`src/lib/services/contributionDeduplicator.ts`: URL-keyed when a
non-empty `url` is present, composite fallback otherwise. -/
def makeKey (c : Contribution) : String :=
  if truthy c.url ∧ c.type = .commit then
    "commit|" ++ orEmpty c.url
  else if truthy c.url ∧ (c.type = .pr ∨ c.type = .review) then
    c.type.render ++ "|" ++ orEmpty c.url
  else
    c.type.render ++ "|" ++ c.timestamp ++ "|" ++ orEmpty c.url ++ "|" ++
      orEmpty c.text ++ "|" ++ orEmpty c.repository ++ "|" ++ orEmpty c.target

/-- Hard-coded base-branch list `BASE_BRANCHES` from
`src/lib/services/contributionDeduplicator.ts`. -/
def BASE_BRANCHES : List String :=
  ["main", "master", "develop", "development", "trunk"]

/-- Model of `String.prototype.toLowerCase` for one character: ASCII
upper-case letters are shifted to lower case (branch names and the
`BASE_BRANCHES` entries are ASCII). -/
def charLower (c : Char) : Char :=
  if c.toNat ≥ 65 ∧ c.toNat ≤ 90 then Char.ofNat (c.toNat + 32) else c

/-- Model of the JavaScript builtin `String.prototype.toLowerCase`. -/
def toLowerCase (s : String) : String :=
  ⟨s.data.map charLower⟩

/-- Predicate `isBaseBranch` from the deduplicator: falsy branch names
are rejected, otherwise membership of the lower-cased name in
`BASE_BRANCHES` is tested. -/
def isBaseBranch (branchName : Option String) : Bool :=
  if truthy branchName = false then false
  else BASE_BRANCHES.contains (toLowerCase (orEmpty branchName))

/-- Conflict-resolution rule `preferContribution` from the
deduplicator: base-branch targets beat non-base targets, then a truthy
target beats a falsy one, then the existing record wins. -/
def preferContribution (existing candidate : Contribution) : Contribution :=
  if isBaseBranch candidate.target ∧ ¬isBaseBranch existing.target then candidate
  else if isBaseBranch existing.target ∧ ¬isBaseBranch candidate.target then existing
  else if truthy candidate.target ∧ ¬truthy existing.target then candidate
  else existing

/-- Association-list lookup, modelling `Map.get` / `Map.has` on the
deduplicator's `seen` map. -/
def lookupSeen : List (String × Contribution) → String → Option Contribution
  | [], _ => none
  | (k', v) :: rest, k => if k' = k then some v else lookupSeen rest k

/-- Association-list update, modelling `Map.set`: an existing key keeps
its position (JavaScript `Map` preserves insertion order), a new key is
appended. -/
def mapSet : List (String × Contribution) → String → Contribution →
    List (String × Contribution)
  | [], k, v => [(k, v)]
  | (k', v') :: rest, k, v =>
      if k' = k then (k', v) :: rest else (k', v') :: mapSet rest k v

/-- One iteration of the `for` loop of `deduplicateContributions`. -/
def dedupStep (seen : List (String × Contribution)) (c : Contribution) :
    List (String × Contribution) :=
  let k := makeKey c
  match lookupSeen seen k with
  | none => mapSet seen k c
  | some existing => mapSet seen k (preferContribution existing c)

/-- Final `seen` map of `deduplicateContributions` after the loop. -/
def seenOf (l : List Contribution) : List (String × Contribution) :=
  l.foldl dedupStep []

/-- Deduplicator `deduplicateContributions` from
`src/lib/services/contributionDeduplicator.ts`:
`Array.from(seen.values())` is the value column of the insertion-ordered
association list. -/
def deduplicateContributions (l : List Contribution) : List Contribution :=
  (seenOf l).map Prod.snd

/-- Configuration consumed from the config file
(`src/lib/config`): base-branch allow-list and the optional
`repositoryProjectIds` record, modelled as an association list. -/
structure Configuration where
  baseBranches : List String
  repositoryProjectIds : Option (List (String × String)) := none

/-- Association-list lookup for `Record<string, string>` access
(`repositoryProjectIds[contribution.repository]`). -/
def recordLookup : List (String × String) → String → Option String
  | [], _ => none
  | (k', v) :: rest, k => if k' = k then some v else recordLookup rest k

/-- Ascending sort of `saveCache`
(`(a, b) => new Date(a.timestamp).getTime() - new Date(b.timestamp).getTime()`);
the builtin `getTime` is the `time` parameter, `Array.prototype.sort`
is modelled by a stable insertion sort. -/
def sortAscByTimestamp (time : String → Int) (l : List Contribution) :
    List Contribution :=
  l.insertionSort (fun a b => time a.timestamp ≤ time b.timestamp)

/-- Descending sort of `fetchAndMergeContributions`
(`(a, b) => new Date(b.timestamp).getTime() - new Date(a.timestamp).getTime()`). -/
def sortDescByTimestamp (time : String → Int) (l : List Contribution) :
    List Contribution :=
  l.insertionSort (fun a b => time b.timestamp ≤ time a.timestamp)

/-- Contribution list stored by `saveCache`
(`src/lib/services/cacheManager.ts`): existing cache contents are
concatenated with the newly fetched list, deduplicated, and sorted
ascending by timestamp before being written back. -/
def saveCacheContributions (time : String → Int)
    (existingContributions newContributions : List Contribution) :
    List Contribution :=
  sortAscByTimestamp time
    (deduplicateContributions (existingContributions ++ newContributions))

/-- Settled outcome of one promise, as produced by
`Promise.allSettled`. -/
inductive SettledResult (ε α : Type) where
  | fulfilled (value : α)
  | rejected (reason : ε)
deriving DecidableEq, Repr

/-- Model of `Promise.allSettled` over already-determined outcomes: it
never rejects, it reshapes every outcome into a `SettledResult`. -/
def promiseAllSettled {ε α : Type} (outcomes : List (Except ε α)) :
    List (SettledResult ε α) :=
  outcomes.map fun o =>
    match o with
    | .ok a => .fulfilled a
    | .error e => .rejected e

/-- Accumulator loop over settled results: push the value of every
fulfilled result, skip every rejected one. -/
def collectFulfilledAux {ε : Type} :
    List Contribution → List (SettledResult ε (List Contribution)) →
      List Contribution
  | acc, [] => acc
  | acc, .fulfilled value :: rest => collectFulfilledAux (acc ++ value) rest
  | acc, .rejected _ :: rest => collectFulfilledAux acc rest

/-- Collection loop of `fetchAndMergeContributions`: push the value of
every fulfilled result, log and skip every rejected one. -/
def collectFulfilled {ε : Type}
    (results : List (SettledResult ε (List Contribution))) :
    List Contribution :=
  collectFulfilledAux [] results

/-- Merge step `fetchAndMergeContributions` from
`src/lib/services/reportGenerator.ts`: fan out over the connectors with
`Promise.allSettled`, concatenate the fulfilled results, deduplicate,
sort newest-first.  Each connector's `fetchContributions` outcome is an
`Except` input. -/
def fetchAndMergeContributions (time : String → Int)
    (outcomes : List (Except String (List Contribution))) :
    List Contribution :=
  sortDescByTimestamp time
    (deduplicateContributions (collectFulfilled (promiseAllSettled outcomes)))

/-- Enrichment `enrichContributionsWithProjectIds` from
`src/lib/services/reportGenerator.ts`: when `contribution.repository`
is truthy and the record lookup yields a truthy project id, return a
copy carrying `projectId`, otherwise return the contribution unchanged. -/
def enrichContributionsWithProjectIds (contributions : List Contribution)
    (repositoryProjectIds : List (String × String)) : List Contribution :=
  contributions.map fun contribution =>
    if truthy contribution.repository then
      match recordLookup repositoryProjectIds (orEmpty contribution.repository) with
      | some projectId =>
          if projectId ≠ "" then { contribution with projectId := some projectId }
          else contribution
      | none => contribution
    else contribution

/-- Report generation `generateReport` from
`src/lib/services/reportGenerator.ts`: merge all connectors' outcomes,
enrich with `configuration.repositoryProjectIds ?? {}`, return.  The
result is an `Except` because a throwing step inside the body would
reject the returned promise; the body's only awaited step is the
`allSettled` fan-out, which never throws. -/
def generateReport (time : String → Int) (configuration : Configuration)
    (outcomes : List (Except String (List Contribution))) :
    Except String (List Contribution) :=
  .ok (enrichContributionsWithProjectIds
        (fetchAndMergeContributions time outcomes)
        (configuration.repositoryProjectIds.getD []))

/-- GraphQL user object (`user { login }`). -/
structure GQLUser where
  login : Option String
deriving DecidableEq, Repr

/-- GraphQL commit author (`GraphQLCommitAuthor` in `src/types.ts`). -/
structure GQLCommitAuthor where
  name : Option String := none
  email : Option String := none
  user : Option GQLUser := none
deriving DecidableEq, Repr

/-- GraphQL commit history node (`GraphQLCommitHistoryNode`). -/
structure GQLCommitHistoryNode where
  oid : Option String := none
  committedDate : Option String := none
  messageHeadline : Option String := none
  message : Option String := none
  url : Option String := none
  author : Option GQLCommitAuthor := none
deriving DecidableEq, Repr

/-- GraphQL page info (`GraphQLPageInfo`). -/
structure GQLPageInfo where
  hasNextPage : Option Bool := none
  endCursor : Option String := none
deriving DecidableEq, Repr

/-- GraphQL commit history (`GraphQLCommitHistory`). -/
structure GQLCommitHistory where
  nodes : Option (List (Option GQLCommitHistoryNode)) := none
  pageInfo : Option GQLPageInfo := none
deriving DecidableEq, Repr

/-- Target of a branch ref, carrying the commit history. -/
structure GQLBranchTarget where
  history : Option GQLCommitHistory := none
deriving DecidableEq, Repr

/-- Default-branch ref of a repository (`defaultBranchRef`). -/
structure GQLDefaultBranchRef where
  name : Option String := none
  target : Option GQLBranchTarget := none
deriving DecidableEq, Repr

/-- Repository with its default-branch history
(`GraphQLRepositoryWithHistory`). -/
structure GQLRepositoryWithHistory where
  nameWithOwner : Option String := none
  defaultBranchRef : Option GQLDefaultBranchRef := none
deriving DecidableEq, Repr

/-- Wrapper from `commitContributionsByRepository`
(`GraphQLCommitRepoWithHistory`). -/
structure GQLCommitRepoWithHistory where
  repository : Option GQLRepositoryWithHistory := none
deriving DecidableEq, Repr

/-- Recorded author login of a commit node
(`commit.author?.user?.login`). -/
def nodeAuthorLogin (n : GQLCommitHistoryNode) : Option String :=
  (n.author.bind GQLCommitAuthor.user).bind GQLUser.login

/-- ASCII whitespace trimmed by the model of
`String.prototype.trim`. -/
def wsChars : List Char :=
  [' ', Char.ofNat 9, Char.ofNat 10, Char.ofNat 13, Char.ofNat 11, Char.ofNat 12]

/-- Model of the JavaScript builtin `String.prototype.trim`. -/
def jsTrim (s : String) : String :=
  ⟨((s.data.dropWhile (wsChars.contains ·)).reverse.dropWhile
      (wsChars.contains ·)).reverse⟩

/-- Commit summary text
(`commit.messageHeadline?.trim() || commit.message?.trim() || undefined`). -/
def commitText (messageHeadline message : Option String) : Option String :=
  let h := messageHeadline.map jsTrim
  let m := message.map jsTrim
  if truthy h then h else if truthy m then m else none

/-- Loop body of the GitHub connector's `extractCommitContributions`
for one first-page history node (the connector variant whose loop
checks `commit.author?.user?.login` against `userLogin`): skips null
nodes, falsy or unparseable `committedDate`, commits outside the closed
date range, and commits whose author login is falsy or differs from the
authenticated user's login. -/
def firstPageCommitOfNode (dateParse : String → Option Int)
    (fromTimestamp toTimestamp : Int) (userLogin : String)
    (repositoryName branchName : Option String) :
    Option GQLCommitHistoryNode → Option Contribution
  | none => none
  | some commit =>
    match commit.committedDate with
    | none => none
    | some timestamp =>
      if timestamp = "" then none
      else
        match dateParse timestamp with
        | none => none
        | some commitTimestamp =>
          if commitTimestamp < fromTimestamp ∨ commitTimestamp > toTimestamp then
            none
          else
            let authorLogin := nodeAuthorLogin commit
            if truthy authorLogin ∧ authorLogin = some userLogin then
              some { type := .commit
                     timestamp := timestamp
                     text := commitText commit.messageHeadline commit.message
                     url := commit.url
                     repository := repositoryName
                     target := branchName }
            else none

/-- Loop body of `fetchPaginatedCommits` for one fetched history node:
skips null nodes and falsy `committedDate`, then applies the same
author-login filter; the date restriction of the paginated query is
re-applied by the caller. -/
def paginatedCommitOfNode (userLogin repositoryName branch : String) :
    Option GQLCommitHistoryNode → Option Contribution
  | none => none
  | some commit =>
    match commit.committedDate with
    | none => none
    | some timestamp =>
      if timestamp = "" then none
      else
        let authorLogin := nodeAuthorLogin commit
        if truthy authorLogin ∧ authorLogin = some userLogin then
          some { type := .commit
                 timestamp := timestamp
                 text := commitText commit.messageHeadline commit.message
                 url := commit.url
                 repository := some repositoryName
                 target := some branch }
        else none

/-- Model of the JavaScript builtin `String.prototype.split` with the
single-character separator `'/'`. -/
def splitOnSlash (s : String) : List String :=
  (s.data.splitOn '/').map List.asString

/-- Model of `fetchPaginatedCommits`: the nodes delivered by the
paginated network queries are supplied as the `pagedNodes` input; the
function processes them exactly as the fetch loop does, rebuilding the
repository name as `` `${owner}/${name}` ``. -/
def fetchPaginatedCommits (userLogin owner name branch : String)
    (pagedNodes : List (Option GQLCommitHistoryNode)) : List Contribution :=
  pagedNodes.filterMap
    (paginatedCommitOfNode userLogin (owner ++ "/" ++ name) branch)

/-- Per-repository body of the GitHub connector's
`extractCommitContributions`: guard on the presence of
`repository.defaultBranchRef?.target?.history`, process the first page
of commits, then, when `pageInfo` signals more pages and repository and
branch names are truthy, append the paginated commits re-filtered by
the closed date range. -/
def extractRepoCommitContributions (dateParse : String → Option Int)
    (fromTimestamp toTimestamp : Int) (userLogin : String)
    (pagedNodes : List (Option GQLCommitHistoryNode))
    (repositoryWrapper : GQLCommitRepoWithHistory) : List Contribution :=
  match repositoryWrapper.repository with
  | none => []
  | some repository =>
    match repository.defaultBranchRef with
    | none => []
    | some defaultBranchRef =>
      match defaultBranchRef.target with
      | none => []
      | some target =>
        match target.history with
        | none => []
        | some history =>
          let repositoryName := repository.nameWithOwner
          let branchName := defaultBranchRef.name
          let commitNodes := history.nodes.getD []
          let firstPage := commitNodes.filterMap
            (firstPageCommitOfNode dateParse fromTimestamp toTimestamp
              userLogin repositoryName branchName)
          let hasNextPage := history.pageInfo.bind GQLPageInfo.hasNextPage
          let endCursor := history.pageInfo.bind GQLPageInfo.endCursor
          let paginated :=
            if hasNextPage = some true ∧ truthy endCursor ∧
                truthy repositoryName ∧ truthy branchName then
              let parts := splitOnSlash (orEmpty repositoryName)
              if truthy (parts.get? 0) ∧ truthy (parts.get? 1) then
                (fetchPaginatedCommits userLogin (orEmpty (parts.get? 0))
                    (orEmpty (parts.get? 1)) (orEmpty branchName)
                    pagedNodes).filter
                  (fun commit =>
                    match dateParse commit.timestamp with
                    | none => false
                    | some commitTimestamp =>
                        fromTimestamp ≤ commitTimestamp ∧
                        commitTimestamp ≤ toTimestamp)
              else []
            else []
          firstPage ++ paginated

/-- `extractCommitContributions` over all repositories of the
aggregate query (the per-repository promises are joined with
`Promise.all` and flattened); each repository wrapper is paired with
the node stream its paginated fetches would deliver. -/
def extractCommitContributions (dateParse : String → Option Int)
    (fromTimestamp toTimestamp : Int) (userLogin : String)
    (repos : List (GQLCommitRepoWithHistory × List (Option GQLCommitHistoryNode))) :
    List Contribution :=
  (repos.map fun rp =>
    extractRepoCommitContributions dateParse fromTimestamp toTimestamp
      userLogin rp.2 rp.1).flatten

/-- Push payload of a GitLab event (`push_data`). -/
structure GitLabPushData where
  ref : Option String := none
  commit_title : Option String := none
deriving DecidableEq, Repr

/-- GitLab activity event, as consumed by the GitLab connector. -/
structure GitLabEvent where
  action_name : Option String := none
  created_at : Option String := none
  target_type : Option String := none
  project_id : Option Int := none
  push_data : Option GitLabPushData := none
deriving DecidableEq, Repr

/-- JavaScript truthiness of an optional number: `undefined` and `0`
are falsy. -/
def truthyInt : Option Int → Bool
  | none => false
  | some n => n ≠ 0

/-- Model of `reference.replace('refs/heads/', '')` for the references
that pass the base-branch guard: such a reference starts with
`refs/heads/`, so the first occurrence of the pattern is its prefix. -/
def stripRefsHeads (s : String) : String :=
  if s.data.take 11 = "refs/heads/".data then ⟨s.data.drop 11⟩ else s

/-- Loop body of the GitLab connector's
`extractPushEventContributions` for one event: keep only `pushed to` /
`pushed new` events with string `created_at` and `push_data.ref`, with
a parseable timestamp strictly after `fromTimestamp` and at most
`toTimestamp`, whose reference is in the configured base-branch
reference set; the project-path lookup performed through the GitLab
projects API is the `projectPath` parameter. -/
def pushEventContributionOf (dateParse : String → Option Int)
    (baseBranches : List String) (projectPath : Int → Option String)
    (fromTimestamp toTimestamp : Int) :
    Option GitLabEvent → Option Contribution
  | none => none
  | some event =>
    if event.action_name ≠ some "pushed to" ∧
        event.action_name ≠ some "pushed new" then none
    else
      match event.created_at, event.push_data.bind GitLabPushData.ref with
      | some createdAt, some reference =>
        (match dateParse createdAt with
         | none => none
         | some createdTimestamp =>
           if createdTimestamp ≤ fromTimestamp ∨
               createdTimestamp > toTimestamp then none
           else if (baseBranches.map (fun b => "refs/heads/" ++ b)).contains
               reference = false then none
           else
             some { type := .commit
                    timestamp := createdAt
                    text := event.push_data.bind GitLabPushData.commit_title
                    url := none
                    repository :=
                      if truthyInt event.project_id then
                        projectPath (event.project_id.getD 0)
                      else none
                    target := some (stripRefsHeads reference) })
      | _, _ => none

/-- GitLab `extractPushEventContributions` over an event feed. -/
def extractPushEventContributions (dateParse : String → Option Int)
    (baseBranches : List String) (projectPath : Int → Option String)
    (fromTimestamp toTimestamp : Int) (events : List (Option GitLabEvent)) :
    List Contribution :=
  events.filterMap
    (pushEventContributionOf dateParse baseBranches projectPath
      fromTimestamp toTimestamp)

/-- Loop body of the GitLab connector's `extractReviewContributions`
for one event: skip events that are neither comment nor approval nor
merge-request-targeted, skip a non-string `created_at` or an
unparseable timestamp, skip timestamps at most `fromTimestamp` or
beyond `toTimestamp`, and push a `review` contribution only for
`approved` events. -/
def reviewEventContributionOf (dateParse : String → Option Int)
    (fromTimestamp toTimestamp : Int) :
    Option GitLabEvent → Option Contribution
  | none => none
  | some event =>
    if event.action_name ≠ some "commented on" ∧
        event.action_name ≠ some "approved" ∧
        event.target_type ≠ some "MergeRequest" then none
    else
      match event.created_at with
      | none => none
      | some createdAt =>
        match dateParse createdAt with
        | none => none
        | some createdTimestamp =>
          if createdTimestamp ≤ fromTimestamp ∨
              createdTimestamp > toTimestamp then none
          else if event.action_name = some "approved" then
            some { type := .review
                   timestamp := createdAt
                   text := some "review"
                   url := none
                   repository := none
                   target := none }
          else none

/-- GitLab `extractReviewContributions` over an event feed. -/
def extractReviewContributions (dateParse : String → Option Int)
    (fromTimestamp toTimestamp : Int) (events : List (Option GitLabEvent)) :
    List Contribution :=
  events.filterMap
    (reviewEventContributionOf dateParse fromTimestamp toTimestamp)

/-! Helper theory about the deduplicator fold: the `seen` map is an
insertion-ordered association list; per key, the fold behaves like a
one-slot accumulator (`survivor`). -/

/-- Key column of the `seen` association list. -/
def keysOf (s : List (String × Contribution)) : List String :=
  s.map Prod.fst

/-- Preference rank induced by `preferContribution`: base-branch
target, then truthy target, then the rest. -/
def preferenceRank (c : Contribution) : Nat :=
  if isBaseBranch c.target then 2 else if truthy c.target then 1 else 0

/-- One step of the per-key accumulator corresponding to `dedupStep`. -/
def survivorStep (k : String) (acc : Option Contribution) (c : Contribution) :
    Option Contribution :=
  if makeKey c = k then
    match acc with
    | none => some c
    | some e => some (preferContribution e c)
  else acc

/-- Per-key accumulator over a contribution list. -/
def survivor (k : String) (init : Option Contribution)
    (l : List Contribution) : Option Contribution :=
  l.foldl (survivorStep k) init

/-- First occurrence of each key, excluding keys already `seen`;
this is the key order a JavaScript `Map` produces. -/
def firstOccurAux (seen : List String) : List String → List String
  | [] => []
  | k :: ks =>
      if k ∈ seen then firstOccurAux seen ks
      else k :: firstOccurAux (seen ++ [k]) ks

/-- Keys in order of first occurrence. -/
def firstOccur (l : List String) : List String :=
  firstOccurAux [] l

/-! Concrete sample data used by witnesses and counterexamples. -/

/-- Sample commit observed with its base-branch context. -/
def wCommitMain : Contribution :=
  { type := .commit
    timestamp := "2024-05-06T12:00:00Z"
    text := some "fix build"
    url := some "https://github.com/acme/app/commit/aaa111"
    repository := some "acme/app"
    target := some "main" }

/-- The same commit observed through a feature-branch code path. -/
def wCommitFeature : Contribution :=
  { type := .commit
    timestamp := "2024-05-06T12:00:00Z"
    text := some "fix build"
    url := some "https://github.com/acme/app/commit/aaa111"
    repository := some "acme/app"
    target := some "feature-x" }

/-- An unrelated commit with its own URL. -/
def wCommitOther : Contribution :=
  { type := .commit
    timestamp := "2024-05-07T09:30:00Z"
    text := some "add tests"
    url := some "https://github.com/acme/app/commit/bbb222"
    repository := some "acme/app"
    target := some "main" }

/-- Commit record whose target is a branch named in the configured (but
not built-in) base-branch set. -/
def c5ReleaseCommit : Contribution :=
  { type := .commit
    timestamp := "2024-03-01T10:00:00Z"
    text := some "add feature"
    url := some "https://github.com/acme/app/commit/ccc333"
    repository := some "acme/app"
    target := some "release" }

/-- The same commit observed with a feature-branch target. -/
def c5FeatureCommit : Contribution :=
  { type := .commit
    timestamp := "2024-03-01T10:00:00Z"
    text := some "add feature"
    url := some "https://github.com/acme/app/commit/ccc333"
    repository := some "acme/app"
    target := some "feature-x" }

/-- Configuration whose base-branch set is `["release"]`. -/
def c5Configuration : Configuration :=
  { baseBranches := ["release"] }

/-- First-encountered record of the C7 counterexample pair. -/
def c7First : Contribution :=
  { type := .commit
    timestamp := "2024-03-02T11:00:00Z"
    text := some "refactor parser"
    url := some "https://github.com/acme/app/commit/ddd444"
    repository := some "acme/app"
    target := some "feature-1" }

/-- Second record of the C7 counterexample pair: same type and URL,
different (equally ranked) target. -/
def c7Second : Contribution :=
  { type := .commit
    timestamp := "2024-03-02T11:00:00Z"
    text := some "refactor parser"
    url := some "https://github.com/acme/app/commit/ddd444"
    repository := some "acme/app"
    target := some "feature-2" }

/-- Mapping that lists `acme/app` as a key but with an empty project id. -/
def c9EmptyMapping : List (String × String) :=
  [("acme/app", "")]

/-- Contribution whose repository is a key of `c9EmptyMapping`. -/
def c9Contribution : Contribution :=
  { type := .pr
    timestamp := "2024-04-01T09:00:00Z"
    text := some "Add import cycle check"
    url := some "https://github.com/acme/app/pull/17"
    repository := some "acme/app"
    target := some "main" }

/-- Mapping carrying a non-empty project id for `acme/app`. -/
def c9Mapping : List (String × String) :=
  [("acme/app", "PROJ-7")]

/-- First-page history nodes reachable inside one repository wrapper
(`repository.defaultBranchRef?.target?.history` with `nodes ?? []`). -/
def historyNodesOf (w : GQLCommitRepoWithHistory) :
    List (Option GQLCommitHistoryNode) :=
  ((((w.repository.bind GQLRepositoryWithHistory.defaultBranchRef).bind
      GQLDefaultBranchRef.target).bind GQLBranchTarget.history).bind
    GQLCommitHistory.nodes).getD []

/-- History node authored by the authenticated user. -/
def c2Node : GQLCommitHistoryNode :=
  { oid := some "aaa111"
    committedDate := some "2024-05-06T12:00:00Z"
    messageHeadline := some "fix build"
    message := some "fix build details"
    url := some "https://github.com/acme/app/commit/aaa111"
    author := some
      { name := some "Felix"
        email := some "felix@example.com"
        user := some { login := some "felix" } } }

/-- History node authored by a different contributor on the shared
branch. -/
def c2OtherNode : GQLCommitHistoryNode :=
  { oid := some "eee555"
    committedDate := some "2024-05-06T12:00:00Z"
    messageHeadline := some "unrelated work"
    message := some "unrelated work"
    url := some "https://github.com/acme/app/commit/eee555"
    author := some
      { name := some "Other"
        email := some "other@example.com"
        user := some { login := some "someone-else" } } }

/-- Repository wrapper holding both nodes in its default-branch
history. -/
def c2Repo : GQLCommitRepoWithHistory :=
  { repository := some
      { nameWithOwner := some "acme/app"
        defaultBranchRef := some
          { name := some "main"
            target := some
              { history := some
                  { nodes := some [some c2Node, some c2OtherNode]
                    pageInfo := some
                      { hasNextPage := some false, endCursor := none } } } } } }

/-- Date parse table for the C2 witness. -/
def c2Parse : String → Option Int :=
  fun s => if s = "2024-05-06T12:00:00Z" then some 500 else none

/-- GitLab push event whose timestamp parses to exactly the requested
`from` instant. -/
def c8Event : GitLabEvent :=
  { action_name := some "pushed to"
    created_at := some "2024-01-01T00:00:00Z"
    target_type := some "Project"
    project_id := some 42
    push_data := some
      { ref := some "refs/heads/main", commit_title := some "work" } }

/-- Date parse table for the C8 counterexample. -/
def c8Parse : String → Option Int :=
  fun s => if s = "2024-01-01T00:00:00Z" then some 1704067200000 else none

/-- Project path lookup for the C8 counterexample. -/
def c8ProjectPath : Int → Option String :=
  fun _ => some "acme/app"

/-- GitLab approval event whose timestamp parses to exactly the
requested `from` instant. -/
def c8ReviewEvent : GitLabEvent :=
  { action_name := some "approved"
    created_at := some "2024-01-01T00:00:00Z"
    target_type := some "MergeRequest"
    project_id := some 42
    push_data := none }

/-- GitLab push event used by the C8 witness. -/
def c8WitnessEvent : GitLabEvent :=
  { action_name := some "pushed to"
    created_at := some "2024-01-02T00:00:00Z"
    target_type := some "Project"
    project_id := some 7
    push_data := some
      { ref := some "refs/heads/develop", commit_title := some "tune cache" } }

/-- Date parse table for the C8 witness. -/
def c8WitnessParse : String → Option Int :=
  fun s =>
    if s = "2024-05-06T12:00:00Z" then some 500
    else if s = "2024-01-02T00:00:00Z" then some 600
    else none

/-- GitLab approval event used by the C8 witness. -/
def c8WitnessReview : GitLabEvent :=
  { action_name := some "approved"
    created_at := some "2024-01-02T00:00:00Z"
    target_type := some "MergeRequest"
    project_id := none
    push_data := none }

theorem lookupSeen_eq_none_iff (s : List (String × Contribution)) (k : String) :
    lookupSeen s k = none ↔ k ∉ keysOf s := by
  induction s with
  | nil => simp [lookupSeen, keysOf]
  | cons p rest ih =>
    obtain ⟨k', v⟩ := p
    by_cases h : k' = k
    · subst h
      simp [lookupSeen, keysOf]
    · simp [lookupSeen, keysOf, h, Ne.symm h] at ih ⊢
      exact ih

theorem lookupSeen_mem {s : List (String × Contribution)} {k : String}
    {v : Contribution} (h : lookupSeen s k = some v) : (k, v) ∈ s := by
  induction s with
  | nil => simp [lookupSeen] at h
  | cons p rest ih =>
    obtain ⟨k', v'⟩ := p
    by_cases hk : k' = k
    · subst hk
      simp [lookupSeen] at h
      subst h
      exact List.mem_cons_self _ _
    · simp [lookupSeen, hk] at h
      exact List.mem_cons_of_mem _ (ih h)

theorem lookupSeen_mapSet (s : List (String × Contribution)) (k : String)
    (v : Contribution) (k' : String) :
    lookupSeen (mapSet s k v) k' =
      if k' = k then some v else lookupSeen s k' := by
  induction s with
  | nil =>
    by_cases h : k' = k
    · simp [mapSet, lookupSeen, h]
    · have h' : ¬k = k' := fun hh => h hh.symm
      simp [mapSet, lookupSeen, h, h']
  | cons p rest ih =>
    obtain ⟨k₀, v₀⟩ := p
    by_cases h0 : k₀ = k
    · subst h0
      by_cases h1 : k' = k₀
      · simp [mapSet, lookupSeen, h1]
      · have h1' : ¬k₀ = k' := fun hh => h1 hh.symm
        simp [mapSet, lookupSeen, h1, h1']
    · by_cases h1 : k₀ = k'
      · subst h1
        have hk : ¬k₀ = k := h0
        have hk' : ¬(k₀ = k) := h0
        simp [mapSet, lookupSeen, h0, hk']
      · have h1' : ¬k' = k₀ := fun hh => h1 hh.symm
        simp [mapSet, lookupSeen, h0, h1, h1', ih]

theorem mapSet_of_not_mem {s : List (String × Contribution)} {k : String}
    (v : Contribution) (h : k ∉ keysOf s) : mapSet s k v = s ++ [(k, v)] := by
  induction s with
  | nil => simp [mapSet]
  | cons p rest ih =>
    obtain ⟨k₀, v₀⟩ := p
    simp [keysOf] at h
    have h0 : ¬k₀ = k := fun he => h.1 he.symm
    simp [mapSet, h0]
    exact ih (by simp [keysOf]; exact h.2)

theorem keysOf_mapSet (s : List (String × Contribution)) (k : String)
    (v : Contribution) :
    keysOf (mapSet s k v) =
      if k ∈ keysOf s then keysOf s else keysOf s ++ [k] := by
  induction s with
  | nil => simp [mapSet, keysOf]
  | cons p rest ih =>
    obtain ⟨k₀, v₀⟩ := p
    by_cases h0 : k₀ = k
    · subst h0
      simp [mapSet, keysOf]
    · have hne : ¬k = k₀ := fun hh => h0 hh.symm
      have hstep : mapSet ((k₀, v₀) :: rest) k v = (k₀, v₀) :: mapSet rest k v := by
        simp [mapSet, h0]
      have hkeys : keysOf ((k₀, v₀) :: rest) = k₀ :: keysOf rest := rfl
      have hmem : (k ∈ keysOf ((k₀, v₀) :: rest)) ↔ k ∈ keysOf rest := by
        rw [hkeys]; simp [hne]
      have hcons : keysOf ((k₀, v₀) :: mapSet rest k v) =
          k₀ :: keysOf (mapSet rest k v) := rfl
      by_cases hm : k ∈ keysOf rest
      · rw [hstep, if_pos (hmem.mpr hm), hcons, hkeys, ih, if_pos hm]
      · rw [hstep, if_neg (fun hh => hm (hmem.mp hh)), hcons, hkeys, ih,
          if_neg hm]
        rfl

theorem mem_mapSet {s : List (String × Contribution)} {k : String}
    {v : Contribution} {p : String × Contribution} (h : p ∈ mapSet s k v) :
    p ∈ s ∨ p = (k, v) := by
  induction s with
  | nil => simp [mapSet] at h; simp [h]
  | cons q rest ih =>
    obtain ⟨k₀, v₀⟩ := q
    by_cases h0 : k₀ = k
    · subst h0
      simp [mapSet] at h
      rcases h with h | h
      · right; simp [h]
      · left; exact List.mem_cons_of_mem _ h
    · simp [mapSet, h0] at h
      rcases h with h | h
      · left; simp [h]
      · rcases ih h with h' | h'
        · left; exact List.mem_cons_of_mem _ h'
        · right; exact h'

theorem preferContribution_eq_or (e c : Contribution) :
    preferContribution e c = e ∨ preferContribution e c = c := by
  unfold preferContribution
  split
  · right; rfl
  · split
    · left; rfl
    · split
      · right; rfl
      · left; rfl

theorem truthy_of_isBaseBranch {t : Option String}
    (h : isBaseBranch t = true) : truthy t = true := by
  unfold isBaseBranch at h
  by_cases ht : truthy t = true
  · exact ht
  · rw [if_pos (by simpa using ht)] at h
    exact absurd h (by simp)

theorem preferContribution_eq_rank (e c : Contribution) :
    preferContribution e c =
      if preferenceRank e < preferenceRank c then c else e := by
  unfold preferContribution preferenceRank
  by_cases hbe : isBaseBranch e.target = true <;>
    by_cases hbc : isBaseBranch c.target = true <;>
      by_cases hte : truthy e.target = true <;>
        by_cases htc : truthy c.target = true <;>
          first
            | exact absurd (truthy_of_isBaseBranch hbe) hte
            | exact absurd (truthy_of_isBaseBranch hbc) htc
            | simp [hbe, hbc, hte, htc]

theorem lookupSeen_dedupStep (s : List (String × Contribution))
    (c : Contribution) (k : String) :
    lookupSeen (dedupStep s c) k = survivorStep k (lookupSeen s k) c := by
  unfold dedupStep survivorStep
  by_cases hk : makeKey c = k
  · subst hk
    cases h : lookupSeen s (makeKey c) with
    | none => simp [h, lookupSeen_mapSet]
    | some e => simp [h, lookupSeen_mapSet]
  · cases h : lookupSeen s (makeKey c) with
    | none =>
      have : ¬k = makeKey c := fun he => hk he.symm
      simp [h, lookupSeen_mapSet, this, hk]
    | some e =>
      have : ¬k = makeKey c := fun he => hk he.symm
      simp [h, lookupSeen_mapSet, this, hk]

theorem lookupSeen_foldl_dedupStep (l : List Contribution)
    (s : List (String × Contribution)) (k : String) :
    lookupSeen (l.foldl dedupStep s) k = survivor k (lookupSeen s k) l := by
  induction l generalizing s with
  | nil => rfl
  | cons c rest ih =>
    show lookupSeen (rest.foldl dedupStep (dedupStep s c)) k = _
    rw [ih, lookupSeen_dedupStep]
    rfl

theorem lookupSeen_seenOf (l : List Contribution) (k : String) :
    lookupSeen (seenOf l) k = survivor k none l := by
  unfold seenOf
  rw [lookupSeen_foldl_dedupStep]
  rfl

theorem mem_firstOccurAux (a : String) (ks : List String) :
    ∀ seen : List String, a ∈ firstOccurAux seen ks ↔ a ∈ ks ∧ a ∉ seen := by
  induction ks with
  | nil => intro seen; simp [firstOccurAux]
  | cons k rest ih =>
    intro seen
    by_cases hk : k ∈ seen
    · rw [firstOccurAux, if_pos hk, ih]
      constructor
      · rintro ⟨h1, h2⟩
        exact ⟨List.mem_cons_of_mem _ h1, h2⟩
      · rintro ⟨h1, h2⟩
        rcases List.mem_cons.mp h1 with h | h
        · exact absurd (h ▸ hk) h2
        · exact ⟨h, h2⟩
    · rw [firstOccurAux, if_neg hk]
      constructor
      · intro h
        rcases List.mem_cons.mp h with h | h
        · exact ⟨h ▸ List.mem_cons_self _ _, h ▸ hk⟩
        · rcases (ih _).mp h with ⟨h1, h2⟩
          refine ⟨List.mem_cons_of_mem _ h1, fun hs => h2 ?_⟩
          exact List.mem_append_left _ hs
      · rintro ⟨h1, h2⟩
        rcases List.mem_cons.mp h1 with h | h
        · exact h ▸ List.mem_cons_self _ _
        · by_cases hak : a = k
          · exact hak ▸ List.mem_cons_self _ _
          · refine List.mem_cons_of_mem _ ((ih _).mpr ⟨h, fun hs => ?_⟩)
            rcases List.mem_append.mp hs with hs | hs
            · exact h2 hs
            · simp at hs
              exact hak hs

theorem nodup_append_firstOccurAux (ks : List String) :
    ∀ seen : List String, seen.Nodup → (seen ++ firstOccurAux seen ks).Nodup := by
  induction ks with
  | nil => intro seen h; simpa [firstOccurAux] using h
  | cons k rest ih =>
    intro seen hseen
    by_cases hk : k ∈ seen
    · rw [firstOccurAux, if_pos hk]
      exact ih seen hseen
    · rw [firstOccurAux, if_neg hk]
      have h1 : (seen ++ [k]).Nodup := by
        simp [List.nodup_append, hseen, hk]
      have h2 := ih (seen ++ [k]) h1
      rw [List.append_cons]
      exact h2

theorem keysOf_dedupStep (s : List (String × Contribution)) (c : Contribution) :
    keysOf (dedupStep s c) =
      if makeKey c ∈ keysOf s then keysOf s else keysOf s ++ [makeKey c] := by
  simp only [dedupStep]
  cases h : lookupSeen s (makeKey c) with
  | none =>
    have hmem : makeKey c ∉ keysOf s := (lookupSeen_eq_none_iff _ _).mp h
    simp [keysOf_mapSet, hmem]
  | some e =>
    have hmem : makeKey c ∈ keysOf s := by
      by_contra hmem
      rw [(lookupSeen_eq_none_iff _ _).mpr hmem] at h
      exact absurd h (by simp)
    simp [keysOf_mapSet, hmem]

theorem keysOf_foldl_dedupStep (l : List Contribution) :
    ∀ s : List (String × Contribution),
      keysOf (l.foldl dedupStep s) =
        keysOf s ++ firstOccurAux (keysOf s) (l.map makeKey) := by
  induction l with
  | nil => intro s; simp [firstOccurAux]
  | cons c rest ih =>
    intro s
    show keysOf (rest.foldl dedupStep (dedupStep s c)) = _
    rw [ih, keysOf_dedupStep]
    by_cases hk : makeKey c ∈ keysOf s
    · simp only [if_pos hk, List.map_cons, firstOccurAux, hk, if_true]
    · simp only [if_neg hk, List.map_cons, firstOccurAux, hk, if_false]
      simp [List.append_assoc]

theorem keysOf_seenOf (l : List Contribution) :
    keysOf (seenOf l) = firstOccur (l.map makeKey) := by
  unfold seenOf firstOccur
  rw [keysOf_foldl_dedupStep]
  rfl

theorem nodup_keysOf_seenOf (l : List Contribution) :
    (keysOf (seenOf l)).Nodup := by
  rw [keysOf_seenOf]
  simpa using nodup_append_firstOccurAux (l.map makeKey) [] (by simp)

theorem snd_mem_of_mem_foldl (l : List Contribution) :
    ∀ s : List (String × Contribution), ∀ p ∈ l.foldl dedupStep s,
      p.2 ∈ s.map Prod.snd ∨ p.2 ∈ l := by
  induction l with
  | nil => intro s p hp; left; exact List.mem_map_of_mem _ hp
  | cons c rest ih =>
    intro s p hp
    rcases ih (dedupStep s c) p hp with h | h
    · rcases List.mem_map.mp h with ⟨q, hq, hqe⟩
      simp only [dedupStep] at hq
      cases hls : lookupSeen s (makeKey c) with
      | none =>
        rw [hls] at hq
        rcases mem_mapSet hq with hmem | hmem
        · left; exact hqe ▸ List.mem_map_of_mem _ hmem
        · right
          rw [hmem] at hqe
          simp at hqe
          simp [← hqe]
      | some e =>
        rw [hls] at hq
        rcases mem_mapSet hq with hmem | hmem
        · left; exact hqe ▸ List.mem_map_of_mem _ hmem
        · rw [hmem] at hqe
          simp at hqe
          rcases preferContribution_eq_or e c with hpe | hpe

          · left
            rw [← hqe, hpe]
            exact List.mem_map_of_mem _ (lookupSeen_mem hls)
          · right
            rw [← hqe, hpe]
            exact List.mem_cons_self _ _
    · right; exact List.mem_cons_of_mem _ h

theorem key_consistent_foldl (l : List Contribution) :
    ∀ s : List (String × Contribution),
      (∀ p ∈ s, makeKey p.2 = p.1) →
        ∀ p ∈ l.foldl dedupStep s, makeKey p.2 = p.1 := by
  induction l with
  | nil => intro s hs p hp; exact hs p hp
  | cons c rest ih =>
    intro s hs p hp
    refine ih (dedupStep s c) ?_ p hp
    intro q hq
    simp only [dedupStep] at hq
    cases hls : lookupSeen s (makeKey c) with
    | none =>
      rw [hls] at hq
      rcases mem_mapSet hq with hmem | hmem
      · exact hs q hmem
      · rw [hmem]
    | some e =>
      rw [hls] at hq
      rcases mem_mapSet hq with hmem | hmem
      · exact hs q hmem
      · rw [hmem]
        have he : makeKey e = makeKey c := hs (makeKey c, e) (lookupSeen_mem hls)
        rcases preferContribution_eq_or e c with hpe | hpe <;> simp [hpe, he]

theorem key_consistent_seenOf (l : List Contribution) :
    ∀ p ∈ seenOf l, makeKey p.2 = p.1 :=
  key_consistent_foldl l [] (by intro p hp; simp at hp)

theorem survivor_append (k : String) (init : Option Contribution)
    (l₁ l₂ : List Contribution) :
    survivor k init (l₁ ++ l₂) = survivor k (survivor k init l₁) l₂ := by
  unfold survivor
  rw [List.foldl_append]

theorem survivor_eq_filter (k : String) (l : List Contribution) :
    ∀ init : Option Contribution,
      survivor k init l = survivor k init (l.filter fun c => makeKey c = k) := by
  induction l with
  | nil => intro init; rfl
  | cons c rest ih =>
    intro init
    by_cases hk : makeKey c = k
    · rw [show survivor k init (c :: rest) = survivor k (survivorStep k init c) rest from rfl]
      rw [List.filter_cons_of_pos (by simpa using hk)]
      rw [show survivor k init (c :: List.filter _ rest) =
            survivor k (survivorStep k init c) (List.filter _ rest) from rfl]
      exact ih _
    · rw [show survivor k init (c :: rest) = survivor k (survivorStep k init c) rest from rfl]
      rw [List.filter_cons_of_neg (by simpa using hk)]
      rw [show survivorStep k init c = init from by simp [survivorStep, hk]]
      exact ih init

theorem survivor_some_of_some (k : String) (l : List Contribution)
    (e : Contribution) : (survivor k (some e) l).isSome := by
  induction l generalizing e with
  | nil => rfl
  | cons c rest ih =>
    show (survivor k (survivorStep k (some e) c) rest).isSome
    by_cases hk : makeKey c = k
    · rw [show survivorStep k (some e) c = some (preferContribution e c) from by
        simp [survivorStep, hk]]
      exact ih _
    · rw [show survivorStep k (some e) c = some e from by simp [survivorStep, hk]]
      exact ih e

theorem survivor_isSome_of_mem {k : String} {l : List Contribution}
    {c : Contribution} (hc : c ∈ l) (hk : makeKey c = k) :
    (survivor k none l).isSome := by
  induction l with
  | nil => simp at hc
  | cons x rest ih =>
    rcases List.mem_cons.mp hc with h | h
    · subst h
      show (survivor k (survivorStep k none c) rest).isSome
      rw [show survivorStep k none c = some c from by simp [survivorStep, hk]]
      exact survivor_some_of_some k rest c
    · show (survivor k (survivorStep k none x) rest).isSome
      cases hs : survivorStep k none x with
      | none => exact ih h
      | some e => exact survivor_some_of_some k rest e

theorem survivor_singleton (k : String) (x : Contribution)
    (hk : makeKey x = k) : survivor k none [x] = some x := by
  simp [survivor, survivorStep, hk]

theorem lookupSeen_of_mem_nodup {s : List (String × Contribution)}
    (hnd : (keysOf s).Nodup) {k : String} {v : Contribution}
    (h : (k, v) ∈ s) : lookupSeen s k = some v := by
  induction s with
  | nil => simp at h
  | cons q rest ih =>
    obtain ⟨k₀, v₀⟩ := q
    have hcons : keysOf ((k₀, v₀) :: rest) = k₀ :: keysOf rest := rfl
    rw [hcons] at hnd
    have hnd' : k₀ ∉ keysOf rest ∧ (keysOf rest).Nodup := List.nodup_cons.mp hnd
    rcases List.mem_cons.mp h with h | h
    · obtain ⟨hk, hv⟩ := Prod.mk.injEq .. ▸ h
      subst hk; subst hv
      simp [lookupSeen]
    · have hne : ¬k₀ = k := by
        intro he
        have : k ∈ keysOf rest := by
          simpa [keysOf] using List.mem_map_of_mem Prod.fst h
        rw [← he] at this
        exact hnd'.1 this
      simp only [lookupSeen, if_neg hne]
      exact ih hnd'.2 h

theorem mem_deduplicateContributions_iff (l : List Contribution)
    (c : Contribution) :
    c ∈ deduplicateContributions l ↔
      ∃ k : String, lookupSeen (seenOf l) k = some c := by
  unfold deduplicateContributions
  constructor
  · intro h
    rcases List.mem_map.mp h with ⟨p, hp, hpe⟩
    exact ⟨p.1, hpe ▸ lookupSeen_of_mem_nodup (nodup_keysOf_seenOf l) hp⟩
  · intro ⟨k, hk⟩
    exact List.mem_map_of_mem Prod.snd (lookupSeen_mem hk)

theorem makeKey_preferContribution {e c : Contribution} {k : String}
    (he : makeKey e = k) (hc : makeKey c = k) :
    makeKey (preferContribution e c) = k := by
  rcases preferContribution_eq_or e c with h | h <;> rw [h] <;> assumption

theorem makeKey_of_survivor (k : String) (l : List Contribution) :
    ∀ init : Option Contribution, (∀ e, init = some e → makeKey e = k) →
      ∀ v, survivor k init l = some v → makeKey v = k := by
  induction l with
  | nil => intro init hinit v hv; exact hinit v hv
  | cons c rest ih =>
    intro init hinit v hv
    refine ih (survivorStep k init c) ?_ v hv
    intro e he
    unfold survivorStep at he
    by_cases hk : makeKey c = k
    · rw [if_pos hk] at he
      cases hi : init with
      | none => rw [hi] at he; simp at he; exact he ▸ hk
      | some e₀ =>
        rw [hi] at he; simp at he
        exact he ▸ makeKey_preferContribution (hinit e₀ hi) hk
    · rw [if_neg hk] at he
      exact hinit e he

theorem filter_map_snd_key (s : List (String × Contribution)) (k : String)
    (hcons : ∀ p ∈ s, makeKey p.2 = p.1) :
    (s.map Prod.snd).filter (fun c => makeKey c = k) =
      (s.filter (fun p => p.1 = k)).map Prod.snd := by
  induction s with
  | nil => rfl
  | cons p rest ih =>
    obtain ⟨k₀, v₀⟩ := p
    have hv : makeKey v₀ = k₀ := hcons (k₀, v₀) (List.mem_cons_self _ _)
    have ih' := ih fun q hq => hcons q (List.mem_cons_of_mem _ hq)
    by_cases hk : k₀ = k
    · rw [List.map_cons, List.filter_cons_of_pos (by simp [hv, hk]),
        List.filter_cons_of_pos (by simp [hk]), List.map_cons, ih']
    · rw [List.map_cons, List.filter_cons_of_neg (by simp [hv, hk]),
        List.filter_cons_of_neg (by simp [hk]), ih']

theorem filter_key_eq_nil {s : List (String × Contribution)} {k : String}
    (h : k ∉ keysOf s) : s.filter (fun p => p.1 = k) = [] := by
  induction s with
  | nil => rfl
  | cons p rest ih =>
    obtain ⟨k₀, v₀⟩ := p
    have h1 : ¬k₀ = k := fun he => h (by simp [keysOf, he])
    have h2 : k ∉ keysOf rest := fun hm => h (by simp [keysOf] at hm ⊢; exact Or.inr hm)
    rw [List.filter_cons_of_neg (by simp [h1]), ih h2]

theorem filter_key_of_nodup {s : List (String × Contribution)} (k : String)
    (hnd : (keysOf s).Nodup) :
    s.filter (fun p => p.1 = k) =
      (match lookupSeen s k with
       | some v => [(k, v)]
       | none => []) := by
  induction s with
  | nil => rfl
  | cons p rest ih =>
    obtain ⟨k₀, v₀⟩ := p
    have hcons : keysOf ((k₀, v₀) :: rest) = k₀ :: keysOf rest := rfl
    rw [hcons] at hnd
    have hnd' := List.nodup_cons.mp hnd
    by_cases hk : k₀ = k
    · subst hk
      rw [List.filter_cons_of_pos (by simp), filter_key_eq_nil hnd'.1]
      simp [lookupSeen]
    · rw [List.filter_cons_of_neg (by simp [hk]), ih hnd'.2]
      simp [lookupSeen, hk]

theorem filter_dedup_key (l : List Contribution) (k : String) :
    (deduplicateContributions l).filter (fun c => makeKey c = k) =
      (match survivor k none l with
       | some v => [v]
       | none => []) := by
  unfold deduplicateContributions
  rw [filter_map_snd_key _ _ (key_consistent_seenOf l),
    filter_key_of_nodup k (nodup_keysOf_seenOf l), ← lookupSeen_seenOf]
  cases lookupSeen (seenOf l) k <;> rfl

theorem survivor_of_perm_dedup {P : List Contribution}
    {A : List Contribution} (hperm : P.Perm (deduplicateContributions A))
    (k : String) : survivor k none P = survivor k none A := by
  have hfilter := hperm.filter (fun c => decide (makeKey c = k))
  rw [filter_dedup_key] at hfilter
  cases hs : survivor k none A with
  | none =>
    rw [hs] at hfilter
    have hP : P.filter (fun c => makeKey c = k) = [] := List.Perm.eq_nil (by simpa using hfilter)
    rw [survivor_eq_filter, hP]
    rfl
  | some v =>
    rw [hs] at hfilter
    have hP : P.filter (fun c => makeKey c = k) = [v] :=
      List.perm_singleton.mp (by simpa using hfilter)
    have hv : makeKey v = k := makeKey_of_survivor k A none (by simp) v hs
    rw [survivor_eq_filter, hP, survivor_singleton k v hv]

theorem foldl_dedupStep_of_fresh (s : List (String × Contribution)) :
    ∀ acc : List (String × Contribution),
      (keysOf (acc ++ s)).Nodup → (∀ p ∈ s, makeKey p.2 = p.1) →
        (s.map Prod.snd).foldl dedupStep acc = acc ++ s := by
  induction s with
  | nil => intro acc _ _; simp
  | cons p rest ih =>
    intro acc hnd hcons
    obtain ⟨k, v⟩ := p
    have hkv : makeKey v = k := hcons (k, v) (List.mem_cons_self _ _)
    have hknd : keysOf (acc ++ (k, v) :: rest) =
        keysOf acc ++ k :: keysOf rest := by
      simp [keysOf]
    have hkfresh : k ∉ keysOf acc := by
      rw [hknd] at hnd
      intro hmem
      have := (List.nodup_append.mp hnd).2.2
      exact this hmem (List.mem_cons_self _ _)
    have hstep : dedupStep acc v = acc ++ [(k, v)] := by
      simp only [dedupStep, hkv]
      rw [(lookupSeen_eq_none_iff acc k).mpr hkfresh]
      exact mapSet_of_not_mem v hkfresh
    show (rest.map Prod.snd).foldl dedupStep (dedupStep acc v) = _
    rw [hstep, ih (acc ++ [(k, v)])
      (by rw [List.append_assoc]; exact hnd)
      (fun q hq => hcons q (List.mem_cons_of_mem _ hq))]
    simp

theorem seenOf_dedup (l : List Contribution) :
    seenOf (deduplicateContributions l) = seenOf l := by
  unfold deduplicateContributions seenOf
  have := foldl_dedupStep_of_fresh (seenOf l) []
    (by simpa using nodup_keysOf_seenOf l) (key_consistent_seenOf l)
  simpa [seenOf] using this

/-- C4.  Deduplication is idempotent.  We prove the deduplicated list is
literally unchanged by a second pass, which implies the claim's
order-insensitive set equality. -/
theorem dedup_idempotent (X : List Contribution) :
    deduplicateContributions (deduplicateContributions X) =
      deduplicateContributions X := by
  calc deduplicateContributions (deduplicateContributions X)
      = (seenOf (deduplicateContributions X)).map Prod.snd := rfl
    _ = (seenOf X).map Prod.snd := by rw [seenOf_dedup]
    _ = deduplicateContributions X := rfl

/-- C10.  Every deduplicated element is field-for-field an element of
the input, and the output carries exactly one element per distinct
deduplication key of the input, in first-occurrence key order. -/
theorem dedup_output_shape (X : List Contribution) :
    (∀ c ∈ deduplicateContributions X, c ∈ X) ∧
    (deduplicateContributions X).map makeKey = firstOccur (X.map makeKey) ∧
    ((deduplicateContributions X).map makeKey).Nodup := by
  have hkeys : (deduplicateContributions X).map makeKey =
      firstOccur (X.map makeKey) := by
    have hcons := key_consistent_seenOf X
    calc (deduplicateContributions X).map makeKey
        = (seenOf X).map (fun p => makeKey p.2) := by
          unfold deduplicateContributions
          rw [List.map_map]
          rfl
      _ = (seenOf X).map Prod.fst := List.map_congr_left hcons
      _ = keysOf (seenOf X) := rfl
      _ = firstOccur (X.map makeKey) := keysOf_seenOf X
  refine ⟨?_, hkeys, ?_⟩
  · intro c hc
    rcases List.mem_map.mp hc with ⟨p, hp, hpe⟩
    rcases snd_mem_of_mem_foldl X [] p hp with h | h
    · simp at h
    · exact hpe ▸ h
  · rw [hkeys, ← keysOf_seenOf]
    exact nodup_keysOf_seenOf X

/-- C10 witness at a concrete input containing a duplicate key. -/
theorem dedup_output_shape_witness :
    wCommitMain ∈ ([wCommitFeature, wCommitMain, wCommitOther] :
        List Contribution) ∧
    (deduplicateContributions [wCommitFeature, wCommitMain, wCommitOther]).map
        makeKey =
      firstOccur ([wCommitFeature, wCommitMain, wCommitOther].map makeKey) :=
  ⟨(dedup_output_shape [wCommitFeature, wCommitMain, wCommitOther]).1
      wCommitMain (by decide),
    (dedup_output_shape [wCommitFeature, wCommitMain, wCommitOther]).2.1⟩

theorem makeKey_of_truthy_url {c : Contribution} (h : truthy c.url = true) :
    makeKey c = c.type.render ++ "|" ++ orEmpty c.url := by
  unfold makeKey
  cases ht : c.type with
  | commit =>
    rw [if_pos (by simp [h, ht])]
    rw [show ContributionType.render .commit = "commit" from rfl]
    rfl
  | pr =>
    rw [if_neg (by simp [ht]), if_pos (by simp [h, ht])]
  | review =>
    rw [if_neg (by simp [ht]), if_pos (by simp [h, ht])]

theorem makeKey_eq_of_same_type_url {a b : Contribution} {u : String}
    (ha : a.url = some u) (hb : b.url = some u) (hu : u ≠ "")
    (ht : a.type = b.type) : makeKey a = makeKey b := by
  have hta : truthy a.url = true := by rw [ha]; simpa [truthy] using hu
  have htb : truthy b.url = true := by rw [hb]; simpa [truthy] using hu
  rw [makeKey_of_truthy_url hta, makeKey_of_truthy_url htb, ha, hb, ht]

/-- C1.  Two contributions of the same type carrying the same non-empty
URL share their deduplication key, and the deduplicator's output
contains exactly one element with that key. -/
theorem dedup_url_key_collapses (l : List Contribution)
    (c₁ c₂ : Contribution) (u : String) (h₁ : c₁ ∈ l) (h₂ : c₂ ∈ l)
    (htype : c₁.type = c₂.type) (hu₁ : c₁.url = some u)
    (hu₂ : c₂.url = some u) (hne : u ≠ "") :
    makeKey c₂ = makeKey c₁ ∧
    ((deduplicateContributions l).filter
        (fun c => makeKey c = makeKey c₁)).length = 1 := by
  refine ⟨makeKey_eq_of_same_type_url hu₂ hu₁ hne htype.symm, ?_⟩
  rw [filter_dedup_key]
  cases hs : survivor (makeKey c₁) none l with
  | none =>
    have := survivor_isSome_of_mem h₁ rfl
    rw [hs] at this
    exact absurd this (by simp)
  | some v => rfl

/-- C1 witness: two same-URL commit records collapse to one survivor. -/
theorem dedup_url_key_collapses_witness :
    makeKey wCommitMain = makeKey wCommitFeature ∧
    ((deduplicateContributions [wCommitFeature, wCommitMain, wCommitOther]).filter
        (fun c => makeKey c = makeKey wCommitFeature)).length = 1 :=
  dedup_url_key_collapses [wCommitFeature, wCommitMain, wCommitOther]
    wCommitFeature wCommitMain "https://github.com/acme/app/commit/aaa111"
    (by decide) (by decide) (by decide) (by decide) (by decide) (by decide)

theorem dedup_pair_of_key_eq {a b : Contribution}
    (h : makeKey a = makeKey b) :
    deduplicateContributions [a, b] = [preferContribution a b] := by
  have h1 : dedupStep [] a = [(makeKey a, a)] := by
    simp [dedupStep, lookupSeen, mapSet]
  have h2 : dedupStep [(makeKey a, a)] b = [(makeKey a, preferContribution a b)] := by
    simp [dedupStep, lookupSeen, mapSet, h]
  calc deduplicateContributions [a, b]
      = (dedupStep (dedupStep [] a) b).map Prod.snd := rfl
    _ = [preferContribution a b] := by rw [h1, h2]; rfl

/-- C5 counterexample.  With `baseBranches` configured as
`["release"]`, two same-key records targeting `release` and
`feature-x` are resolved in favour of the *first encountered* record
(the `feature-x` one), not the configured-base-branch one: the
deduplicator consults only the hard-coded `BASE_BRANCHES` list and
ignores the configuration. -/
theorem dedup_config_branch_counterexample :
    c5Configuration.baseBranches = ["release"] ∧
    c5ReleaseCommit.target = some "release" ∧
    c5FeatureCommit.target = some "feature-x" ∧
    makeKey c5FeatureCommit = makeKey c5ReleaseCommit ∧
    deduplicateContributions [c5FeatureCommit, c5ReleaseCommit] =
      [c5FeatureCommit] ∧
    c5FeatureCommit ≠ c5ReleaseCommit := by
  decide

/-- C5 amended.  For two same-key contributions of which exactly one
targets a branch in the deduplicator's built-in base-branch list
(`main`, `master`, `develop`, `development`, `trunk`,
case-insensitively), deduplication keeps the built-in-base-branch one
regardless of input order; the configured base-branch set plays no role. -/
theorem dedup_keeps_builtin_base_branch (c d : Contribution)
    (h : makeKey c = makeKey d) (hc : isBaseBranch c.target = true)
    (hd : isBaseBranch d.target = false) :
    deduplicateContributions [c, d] = [c] ∧
    deduplicateContributions [d, c] = [c] := by
  constructor
  · rw [dedup_pair_of_key_eq h]
    have : preferContribution c d = c := by
      unfold preferContribution
      rw [if_neg (by simp [hd]), if_pos (by simp [hc, hd])]
    rw [this]
  · rw [dedup_pair_of_key_eq h.symm]
    have : preferContribution d c = c := by
      unfold preferContribution
      rw [if_pos (by simp [hc, hd])]
    rw [this]

/-- C5 witness: a `main`-target record beats a `feature-x`-target record
in either order. -/
theorem dedup_keeps_builtin_base_branch_witness :
    deduplicateContributions [wCommitMain, wCommitFeature] = [wCommitMain] ∧
    deduplicateContributions [wCommitFeature, wCommitMain] = [wCommitMain] :=
  dedup_keeps_builtin_base_branch wCommitMain wCommitFeature
    (by decide) (by decide) (by decide)

/-- C7 counterexample.  Two commits with the same type and the same
non-empty URL but two distinct non-base targets survive first-wins:
the survivor differs between the two input orders, so the
URL-present conflict resolution is not input-order-independent. -/
theorem dedup_url_order_counterexample :
    c7First.type = c7Second.type ∧
    c7First.url = some "https://github.com/acme/app/commit/ddd444" ∧
    c7Second.url = c7First.url ∧
    deduplicateContributions [c7First, c7Second] = [c7First] ∧
    deduplicateContributions [c7Second, c7First] = [c7Second] ∧
    c7First ≠ c7Second := by
  decide

/-- C7 amended.  For two contributions with the same type and the same
non-empty URL, the chosen survivor is independent of the input order
exactly when the preference rule ranks the two differently (base-branch
target beats non-base, truthy target beats falsy); when the ranks tie,
the first encountered record wins, also in the URL-present case. -/
theorem dedup_url_order_independence (a b : Contribution) (u : String)
    (ha : a.url = some u) (hb : b.url = some u) (hu : u ≠ "")
    (ht : a.type = b.type) :
    (preferenceRank a ≠ preferenceRank b →
      deduplicateContributions [a, b] = deduplicateContributions [b, a]) ∧
    (preferenceRank a = preferenceRank b →
      deduplicateContributions [a, b] = [a] ∧
      deduplicateContributions [b, a] = [b]) := by
  have hk : makeKey a = makeKey b := makeKey_eq_of_same_type_url ha hb hu ht
  rw [dedup_pair_of_key_eq hk, dedup_pair_of_key_eq hk.symm,
    preferContribution_eq_rank, preferContribution_eq_rank]
  constructor
  · intro hne
    rcases Nat.lt_trichotomy (preferenceRank a) (preferenceRank b) with h | h | h
    · rw [if_pos h, if_neg (by omega)]
    · exact absurd h hne
    · rw [if_neg (by omega), if_pos h]
  · intro heq
    rw [if_neg (by omega), if_neg (by omega)]
    exact ⟨rfl, rfl⟩

/-- C7 witness: differently ranked same-URL records produce the same
survivor in either order. -/
theorem dedup_url_order_independence_witness :
    deduplicateContributions [wCommitFeature, wCommitMain] =
      deduplicateContributions [wCommitMain, wCommitFeature] :=
  (dedup_url_order_independence wCommitFeature wCommitMain
      "https://github.com/acme/app/commit/aaa111"
      (by decide) (by decide) (by decide) (by decide)).1 (by decide)

/-- C9 counterexample.  The contribution's `repository` is a key of the
configured mapping, yet no `projectId` is attached, because the code
tests the looked-up value for truthiness and the mapped value is the
empty string. -/
theorem enrich_key_counterexample :
    "acme/app" ∈ c9EmptyMapping.map Prod.fst ∧
    c9Contribution.repository = some "acme/app" ∧
    c9Contribution.projectId = none ∧
    enrichContributionsWithProjectIds [c9Contribution] c9EmptyMapping =
      [c9Contribution] := by
  decide

/-- C9 amended.  For a contribution carrying no `projectId`, enrichment
attaches `projectId` exactly when `repository` is a truthy (non-empty)
string, is a key of the mapping, and the mapped value is truthy
(non-empty); only `projectId` changes, every other field is kept, and
otherwise the contribution is returned unchanged. -/
theorem enrich_attaches_iff (m : List (String × String)) (c : Contribution)
    (hp : c.projectId = none) :
    (∀ r p, c.repository = some r → r ≠ "" → recordLookup m r = some p →
      p ≠ "" →
        enrichContributionsWithProjectIds [c] m =
          [{ c with projectId := some p }]) ∧
    ((¬ ∃ r p, c.repository = some r ∧ r ≠ "" ∧ recordLookup m r = some p ∧
        p ≠ "") →
      enrichContributionsWithProjectIds [c] m = [c]) := by
  constructor
  · intro r p hr hrne hlook hpne
    have htr : truthy c.repository = true := by rw [hr]; simpa [truthy] using hrne
    have hor : orEmpty c.repository = r := by rw [hr]; rfl
    simp only [enrichContributionsWithProjectIds, List.map, htr, if_pos, hor,
      hlook]
    rw [if_pos hpne]
  · intro hno
    by_cases htr : truthy c.repository = true
    · cases hr : c.repository with
      | none => rw [hr] at htr; simp [truthy] at htr
      | some r =>
        have hrne : r ≠ "" := by rw [hr] at htr; simpa [truthy] using htr
        have hor : orEmpty c.repository = r := by rw [hr]; rfl
        cases hlook : recordLookup m r with
        | none =>
          simp only [enrichContributionsWithProjectIds, List.map, htr, if_pos,
            hor, hlook]
        | some p =>
          have hpe : p = "" := by
            by_contra hpe
            exact hno ⟨r, p, hr, hrne, hlook, hpe⟩
          simp only [enrichContributionsWithProjectIds, List.map, htr, if_pos,
            hor, hlook]
          rw [if_neg (by simpa using hpe)]
    · simp only [enrichContributionsWithProjectIds, List.map]
      rw [if_neg htr]

/-- C9 witness: a matching repository with a non-empty mapped value gets
exactly the `projectId` field attached. -/
theorem enrich_attaches_iff_witness :
    enrichContributionsWithProjectIds [c9Contribution] c9Mapping =
      [{ c9Contribution with projectId := some "PROJ-7" }] :=
  (enrich_attaches_iff c9Mapping c9Contribution rfl).1 "acme/app" "PROJ-7"
    rfl (by decide) (by decide) (by decide)

theorem collectFulfilledAux_promiseAllSettled
    (outcomes : List (Except String (List Contribution))) :
    ∀ acc : List Contribution,
      collectFulfilledAux acc (promiseAllSettled outcomes) =
        acc ++ (outcomes.filterMap Except.toOption).flatten := by
  induction outcomes with
  | nil => intro acc; simp [promiseAllSettled, collectFulfilledAux]
  | cons o rest ih =>
    intro acc
    cases o with
    | ok value =>
      show collectFulfilledAux (acc ++ value) (promiseAllSettled rest) = _
      rw [ih (acc ++ value)]
      simp [List.filterMap_cons, Except.toOption, List.append_assoc]
    | error e =>
      show collectFulfilledAux acc (promiseAllSettled rest) = _
      rw [ih acc]
      simp [List.filterMap_cons, Except.toOption]

theorem collectFulfilled_promiseAllSettled
    (outcomes : List (Except String (List Contribution))) :
    collectFulfilled (promiseAllSettled outcomes) =
      (outcomes.filterMap Except.toOption).flatten := by
  unfold collectFulfilled
  rw [collectFulfilledAux_promiseAllSettled outcomes []]
  rfl

/-- C6.  When at least one connector outcome fulfills and at least one
rejects, `generateReport` still fulfills, and its value is exactly the
fulfilled outcomes' contributions, deduplicated, sorted descending by
timestamp, and enriched: a rejected connector never rejects the report. -/
theorem generateReport_tolerates_rejection (time : String → Int)
    (configuration : Configuration)
    (outcomes : List (Except String (List Contribution)))
    (hok : ∃ a ∈ outcomes, ∃ l, a = Except.ok l)
    (herr : ∃ b ∈ outcomes, ∃ e, b = Except.error e) :
    generateReport time configuration outcomes =
      Except.ok (enrichContributionsWithProjectIds
        (sortDescByTimestamp time (deduplicateContributions
          ((outcomes.filterMap Except.toOption).flatten)))
        (configuration.repositoryProjectIds.getD [])) := by
  unfold generateReport fetchAndMergeContributions
  rw [collectFulfilled_promiseAllSettled]

/-- C6 witness: one fulfilled and one rejected connector. -/
theorem generateReport_tolerates_rejection_witness :
    generateReport (fun _ => 0) { baseBranches := ["main"] }
        [Except.ok [wCommitMain], Except.error "rate limited"] =
      Except.ok [wCommitMain] := by
  have h := generateReport_tolerates_rejection (fun _ => 0)
    { baseBranches := ["main"] }
    [Except.ok [wCommitMain], Except.error "rate limited"]
    ⟨Except.ok [wCommitMain], by simp, [wCommitMain], rfl⟩
    ⟨Except.error "rate limited", by simp, "rate limited", rfl⟩
  rw [h]
  have hval : enrichContributionsWithProjectIds
      (sortDescByTimestamp (fun _ => (0 : Int)) (deduplicateContributions
        ((([Except.ok [wCommitMain], Except.error "rate limited"] :
            List (Except String (List Contribution))).filterMap
          Except.toOption).flatten)))
      (({ baseBranches := ["main"] } :
          Configuration).repositoryProjectIds.getD []) = [wCommitMain] := by
    decide
  rw [hval]

/-- C3.  Saving contribution set `A` and then set `B` into an initially
empty cache loses nothing: every element of
`deduplicateContributions (A ++ B)` is present in the stored list (the
two agree as sets; only exact duplicates under the deduplication key are
collapsed). -/
theorem saveCache_monotonic (time : String → Int)
    (A B : List Contribution) (c : Contribution)
    (hc : c ∈ deduplicateContributions (A ++ B)) :
    c ∈ saveCacheContributions time (saveCacheContributions time [] A) B := by
  have hperm1 : (saveCacheContributions time [] A).Perm
      (deduplicateContributions A) :=
    List.perm_insertionSort _ _
  have hsurv : ∀ k : String,
      survivor k none (saveCacheContributions time [] A ++ B) =
        survivor k none (A ++ B) := by
    intro k
    rw [survivor_append, survivor_append, survivor_of_perm_dedup hperm1]
  rcases (mem_deduplicateContributions_iff _ c).mp hc with ⟨k, hk⟩
  rw [lookupSeen_seenOf] at hk
  have hk2 : lookupSeen (seenOf (saveCacheContributions time [] A ++ B)) k =
      some c := by
    rw [lookupSeen_seenOf, hsurv k]
    exact hk
  have hmem : c ∈ deduplicateContributions
      (saveCacheContributions time [] A ++ B) :=
    (mem_deduplicateContributions_iff _ c).mpr ⟨k, hk2⟩
  unfold saveCacheContributions sortAscByTimestamp
  exact (List.perm_insertionSort _ _).mem_iff.mpr hmem

/-- C3 witness: two overlapping saves retain the unified survivor set. -/
theorem saveCache_monotonic_witness :
    wCommitOther ∈ saveCacheContributions (fun _ => 0)
      (saveCacheContributions (fun _ => 0) [] [wCommitMain, wCommitOther])
      [wCommitFeature] :=
  saveCache_monotonic (fun _ => 0) [wCommitMain, wCommitOther]
    [wCommitFeature] wCommitOther (by decide)

theorem firstPageCommitOfNode_author {dateParse : String → Option Int}
    {fromTimestamp toTimestamp : Int} {userLogin : String}
    {repositoryName branchName : Option String}
    {nodeOpt : Option GQLCommitHistoryNode} {c : Contribution}
    (h : firstPageCommitOfNode dateParse fromTimestamp toTimestamp userLogin
        repositoryName branchName nodeOpt = some c) :
    ∃ n : GQLCommitHistoryNode, nodeOpt = some n ∧
      nodeAuthorLogin n = some userLogin ∧
      n.committedDate = some c.timestamp := by
  cases nodeOpt with
  | none => simp [firstPageCommitOfNode] at h
  | some commit =>
    refine ⟨commit, rfl, ?_⟩
    rw [firstPageCommitOfNode] at h
    cases hcd : commit.committedDate with
    | none => rw [hcd] at h; simp at h
    | some ts =>
      rw [hcd] at h
      dsimp only at h
      by_cases hts : ts = ""
      · rw [if_pos hts] at h; simp at h
      · rw [if_neg hts] at h
        cases hp : dateParse ts with
        | none => rw [hp] at h; simp at h
        | some t =>
          rw [hp] at h
          dsimp only at h
          by_cases hrange : t < fromTimestamp ∨ t > toTimestamp
          · rw [if_pos hrange] at h; simp at h
          · rw [if_neg hrange] at h
            by_cases hauth : (truthy (nodeAuthorLogin commit) ∧
                nodeAuthorLogin commit = some userLogin)
            · rw [if_pos hauth] at h
              have hc : _ = c := Option.some.inj h
              constructor
              · exact hauth.2
              · subst hc
                rfl
            · rw [if_neg hauth] at h; simp at h

theorem paginatedCommitOfNode_author {userLogin repositoryName branch : String}
    {nodeOpt : Option GQLCommitHistoryNode} {c : Contribution}
    (h : paginatedCommitOfNode userLogin repositoryName branch nodeOpt =
      some c) :
    ∃ n : GQLCommitHistoryNode, nodeOpt = some n ∧
      nodeAuthorLogin n = some userLogin ∧
      n.committedDate = some c.timestamp := by
  cases nodeOpt with
  | none => simp [paginatedCommitOfNode] at h
  | some commit =>
    refine ⟨commit, rfl, ?_⟩
    rw [paginatedCommitOfNode] at h
    cases hcd : commit.committedDate with
    | none => rw [hcd] at h; simp at h
    | some ts =>
      rw [hcd] at h
      dsimp only at h
      by_cases hts : ts = ""
      · rw [if_pos hts] at h; simp at h
      · rw [if_neg hts] at h
        by_cases hauth : (truthy (nodeAuthorLogin commit) ∧
            nodeAuthorLogin commit = some userLogin)
        · rw [if_pos hauth] at h
          have hc : _ = c := Option.some.inj h
          constructor
          · exact hauth.2
          · subst hc
            rfl
        · rw [if_neg hauth] at h; simp at h

theorem extractRepoCommitContributions_author
    {dateParse : String → Option Int} {fromTimestamp toTimestamp : Int}
    {userLogin : String} {pagedNodes : List (Option GQLCommitHistoryNode)}
    {w : GQLCommitRepoWithHistory} {c : Contribution}
    (hc : c ∈ extractRepoCommitContributions dateParse fromTimestamp
        toTimestamp userLogin pagedNodes w) :
    ∃ n : GQLCommitHistoryNode,
      (some n ∈ historyNodesOf w ∨ some n ∈ pagedNodes) ∧
      nodeAuthorLogin n = some userLogin ∧
      n.committedDate = some c.timestamp := by
  rw [extractRepoCommitContributions] at hc
  cases hw : w.repository with
  | none => rw [hw] at hc; simp at hc
  | some repository =>
    rw [hw] at hc
    dsimp only at hc
    cases hd : repository.defaultBranchRef with
    | none => rw [hd] at hc; simp at hc
    | some defaultBranchRef =>
      rw [hd] at hc
      dsimp only at hc
      cases htg : defaultBranchRef.target with
      | none => rw [htg] at hc; simp at hc
      | some target =>
        rw [htg] at hc
        dsimp only at hc
        cases hh : target.history with
        | none => rw [hh] at hc; simp at hc
        | some history =>
          rw [hh] at hc
          dsimp only at hc
          have hnodes : historyNodesOf w = history.nodes.getD [] := by
            simp [historyNodesOf, hw, hd, htg, hh]
          rcases List.mem_append.mp hc with hfirst | hpaged
          · rcases List.mem_filterMap.mp hfirst with ⟨nodeOpt, hmem, hsome⟩
            rcases firstPageCommitOfNode_author hsome with ⟨n, hne, hal, hcd⟩
            exact ⟨n, Or.inl (by rw [hnodes, ← hne]; exact hmem), hal, hcd⟩
          · by_cases hcond : (history.pageInfo.bind GQLPageInfo.hasNextPage =
                some true ∧
                truthy (history.pageInfo.bind GQLPageInfo.endCursor) ∧
                truthy repository.nameWithOwner ∧
                truthy defaultBranchRef.name)
            · rw [if_pos hcond] at hpaged
              by_cases hparts :
                  (truthy ((splitOnSlash (orEmpty repository.nameWithOwner)).get? 0) ∧
                    truthy ((splitOnSlash (orEmpty repository.nameWithOwner)).get? 1))
              · rw [if_pos hparts] at hpaged
                have hmem := List.mem_filter.mp hpaged
                rcases List.mem_filterMap.mp hmem.1 with ⟨nodeOpt, hnmem, hsome⟩
                rcases paginatedCommitOfNode_author hsome with ⟨n, hne, hal, hcd⟩
                exact ⟨n, Or.inr (by rw [← hne]; exact hnmem), hal, hcd⟩
              · rw [if_neg hparts] at hpaged
                simp at hpaged
            · rw [if_neg hcond] at hpaged
              simp at hpaged

/-- C2.  Every commit returned by the GitHub connector's commit
extraction originates from a history node (first page or paginated)
whose recorded author login resolves to the authenticated user's login:
a fetched commit whose author does not resolve to that login is
discarded. -/
theorem extractCommitContributions_author_filter
    (dateParse : String → Option Int) (fromTimestamp toTimestamp : Int)
    (userLogin : String)
    (repos : List (GQLCommitRepoWithHistory × List (Option GQLCommitHistoryNode)))
    (c : Contribution)
    (hc : c ∈ extractCommitContributions dateParse fromTimestamp toTimestamp
        userLogin repos) :
    ∃ rp ∈ repos, ∃ n : GQLCommitHistoryNode,
      (some n ∈ historyNodesOf rp.1 ∨ some n ∈ rp.2) ∧
      nodeAuthorLogin n = some userLogin ∧
      n.committedDate = some c.timestamp := by
  rw [extractCommitContributions] at hc
  rcases List.mem_flatten.mp hc with ⟨part, hpart, hcpart⟩
  rcases List.mem_map.mp hpart with ⟨rp, hrp, hrpe⟩
  rcases extractRepoCommitContributions_author (hrpe ▸ hcpart) with
    ⟨n, hmem, hal, hcd⟩
  exact ⟨rp, hrp, n, hmem, hal, hcd⟩

/-- C2 witness: the extraction of `c2Repo` keeps the authenticated
user's commit, and the theorem traces it back to an author-matching
node. -/
theorem extractCommitContributions_author_filter_witness :
    ∃ rp ∈ [(c2Repo, ([] : List (Option GQLCommitHistoryNode)))],
      ∃ n : GQLCommitHistoryNode,
        (some n ∈ historyNodesOf rp.1 ∨ some n ∈ rp.2) ∧
        nodeAuthorLogin n = some "felix" ∧
        n.committedDate = some wCommitMain.timestamp :=
  extractCommitContributions_author_filter c2Parse 0 1000 "felix"
    [(c2Repo, [])] wCommitMain (by decide)

theorem firstPageCommitOfNode_eval {dateParse : String → Option Int}
    {fromTimestamp toTimestamp : Int} {userLogin : String}
    {repositoryName branchName : Option String} {node : GQLCommitHistoryNode}
    {ts : String} {t : Int} (hts : node.committedDate = some ts)
    (htne : ts ≠ "") (hparse : dateParse ts = some t)
    (hauthor : nodeAuthorLogin node = some userLogin) (hlogin : userLogin ≠ "") :
    firstPageCommitOfNode dateParse fromTimestamp toTimestamp userLogin
        repositoryName branchName (some node) =
      if t < fromTimestamp ∨ t > toTimestamp then none
      else some { type := .commit
                  timestamp := ts
                  text := commitText node.messageHeadline node.message
                  url := node.url
                  repository := repositoryName
                  target := branchName } := by
  rw [firstPageCommitOfNode, hts]
  dsimp only
  rw [if_neg htne, hparse]
  dsimp only
  by_cases hrange : t < fromTimestamp ∨ t > toTimestamp
  · rw [if_pos hrange, if_pos hrange]
  · rw [if_neg hrange, if_neg hrange, hauthor]
    rw [if_pos ⟨by simpa [truthy] using hlogin, rfl⟩]

theorem pushEventContributionOf_eval {dateParse : String → Option Int}
    {baseBranches : List String} {projectPath : Int → Option String}
    {fromTimestamp toTimestamp : Int} {event : GitLabEvent} {ets : String}
    {et : Int} {b : String} (hact : event.action_name = some "pushed to")
    (hcreated : event.created_at = some ets)
    (href : event.push_data.bind GitLabPushData.ref =
      some ("refs/heads/" ++ b))
    (hb : b ∈ baseBranches) (hparse : dateParse ets = some et) :
    pushEventContributionOf dateParse baseBranches projectPath
        fromTimestamp toTimestamp (some event) =
      if et ≤ fromTimestamp ∨ et > toTimestamp then none
      else some { type := .commit
                  timestamp := ets
                  text := event.push_data.bind GitLabPushData.commit_title
                  url := none
                  repository :=
                    if truthyInt event.project_id then
                      projectPath (event.project_id.getD 0)
                    else none
                  target := some (stripRefsHeads ("refs/heads/" ++ b)) } := by
  rw [pushEventContributionOf]
  rw [if_neg (by simp [hact])]
  rw [hcreated, href]
  dsimp only
  rw [hparse]
  dsimp only
  by_cases hrange : et ≤ fromTimestamp ∨ et > toTimestamp
  · rw [if_pos hrange, if_pos hrange]
  · rw [if_neg hrange, if_neg hrange]
    have hmem : ("refs/heads/" ++ b) ∈
        baseBranches.map (fun x => "refs/heads/" ++ x) :=
      List.mem_map_of_mem _ hb
    have hcontains : (baseBranches.map (fun x => "refs/heads/" ++ x)).contains
        ("refs/heads/" ++ b) = true := List.elem_iff.mpr hmem
    rw [if_neg (by rw [hcontains]; simp)]

theorem reviewEventContributionOf_eval {dateParse : String → Option Int}
    {fromTimestamp toTimestamp : Int} {event : GitLabEvent} {ets : String}
    {et : Int} (hact : event.action_name = some "approved")
    (hcreated : event.created_at = some ets)
    (hparse : dateParse ets = some et) :
    reviewEventContributionOf dateParse fromTimestamp toTimestamp
        (some event) =
      if et ≤ fromTimestamp ∨ et > toTimestamp then none
      else some { type := .review
                  timestamp := ets
                  text := some "review"
                  url := none
                  repository := none
                  target := none } := by
  rw [reviewEventContributionOf]
  rw [if_neg (by simp [hact])]
  rw [hcreated]
  dsimp only
  rw [hparse]
  dsimp only
  by_cases hrange : et ≤ fromTimestamp ∨ et > toTimestamp
  · rw [if_pos hrange, if_pos hrange]
  · rw [if_neg hrange, if_neg hrange, if_pos hact]

/-- C8 counterexample.  A GitLab push event to a configured base branch
whose timestamp equals `from` exactly is discarded by
`extractPushEventContributions`, and an approval event at the same
instant is discarded by `extractReviewContributions`; shifting `from`
one millisecond earlier keeps both events, so the exclusion comes from
the boundary comparison, not from any other filter. -/
theorem dateRange_from_boundary_counterexample :
    c8Parse "2024-01-01T00:00:00Z" = some 1704067200000 ∧
    extractPushEventContributions c8Parse ["main"] c8ProjectPath
      1704067200000 1704672000000 [some c8Event] = [] ∧
    extractPushEventContributions c8Parse ["main"] c8ProjectPath
      1704067199999 1704672000000 [some c8Event] ≠ [] ∧
    extractReviewContributions c8Parse
      1704067200000 1704672000000 [some c8ReviewEvent] = [] ∧
    extractReviewContributions c8Parse
      1704067199999 1704672000000 [some c8ReviewEvent] ≠ [] := by
  decide

/-- C8 amended.  The GitHub connector's commit filter treats the
requested range as closed on both ends (`from ≤ t ≤ to`), but the
GitLab connector's push-event and review extraction use the half-open
interval `from < t ≤ to`: an event at exactly `to` is kept, an event
at exactly `from` is dropped. -/
theorem dateRange_boundary_semantics (dateParse : String → Option Int)
    (fromTimestamp toTimestamp : Int) (userLogin : String)
    (repositoryName branchName : Option String)
    (node : GQLCommitHistoryNode) (ts : String) (t : Int)
    (baseBranches : List String) (projectPath : Int → Option String)
    (event : GitLabEvent) (ets : String) (et : Int) (b : String)
    (reviewEvent : GitLabEvent) (rts : String) (rt : Int)
    (hts : node.committedDate = some ts) (htne : ts ≠ "")
    (hparse : dateParse ts = some t)
    (hauthor : nodeAuthorLogin node = some userLogin)
    (hlogin : userLogin ≠ "")
    (hact : event.action_name = some "pushed to")
    (hcreated : event.created_at = some ets)
    (href : event.push_data.bind GitLabPushData.ref =
      some ("refs/heads/" ++ b))
    (hb : b ∈ baseBranches) (hparse2 : dateParse ets = some et)
    (hract : reviewEvent.action_name = some "approved")
    (hrcreated : reviewEvent.created_at = some rts)
    (hparse3 : dateParse rts = some rt) :
    ((firstPageCommitOfNode dateParse fromTimestamp toTimestamp userLogin
        repositoryName branchName (some node)).isSome ↔
      (fromTimestamp ≤ t ∧ t ≤ toTimestamp)) ∧
    ((pushEventContributionOf dateParse baseBranches projectPath
        fromTimestamp toTimestamp (some event)).isSome ↔
      (fromTimestamp < et ∧ et ≤ toTimestamp)) ∧
    ((reviewEventContributionOf dateParse fromTimestamp toTimestamp
        (some reviewEvent)).isSome ↔
      (fromTimestamp < rt ∧ rt ≤ toTimestamp)) := by
  refine ⟨?_, ?_, ?_⟩
  · rw [firstPageCommitOfNode_eval hts htne hparse hauthor hlogin]
    by_cases hr : t < fromTimestamp ∨ t > toTimestamp
    · rw [if_pos hr]
      simp only [Option.isSome_none, Bool.false_eq_true, false_iff]
      omega
    · rw [if_neg hr]
      simp only [Option.isSome_some, true_iff]
      omega
  · rw [pushEventContributionOf_eval hact hcreated href hb hparse2]
    by_cases hr : et ≤ fromTimestamp ∨ et > toTimestamp
    · rw [if_pos hr]
      simp only [Option.isSome_none, Bool.false_eq_true, false_iff]
      omega
    · rw [if_neg hr]
      simp only [Option.isSome_some, true_iff]
      omega
  · rw [reviewEventContributionOf_eval hract hrcreated hparse3]
    by_cases hr : rt ≤ fromTimestamp ∨ rt > toTimestamp
    · rw [if_pos hr]
      simp only [Option.isSome_none, Bool.false_eq_true, false_iff]
      omega
    · rw [if_neg hr]
      simp only [Option.isSome_some, true_iff]
      omega

/-- C8 witness at concrete boundary data. -/
theorem dateRange_boundary_semantics_witness :
    ((firstPageCommitOfNode c8WitnessParse 100 1000 "felix"
        (some "acme/app") (some "main") (some c2Node)).isSome ↔
      ((100 : Int) ≤ 500 ∧ (500 : Int) ≤ 1000)) ∧
    ((pushEventContributionOf c8WitnessParse ["develop"] c8ProjectPath
        100 1000 (some c8WitnessEvent)).isSome ↔
      ((100 : Int) < 600 ∧ (600 : Int) ≤ 1000)) ∧
    ((reviewEventContributionOf c8WitnessParse 100 1000
        (some c8WitnessReview)).isSome ↔
      ((100 : Int) < 600 ∧ (600 : Int) ≤ 1000)) :=
  dateRange_boundary_semantics c8WitnessParse 100 1000 "felix"
    (some "acme/app") (some "main") c2Node "2024-05-06T12:00:00Z" 500
    ["develop"] c8ProjectPath c8WitnessEvent "2024-01-02T00:00:00Z" 600
    "develop" c8WitnessReview "2024-01-02T00:00:00Z" 600
    (by decide) (by decide) (by decide) (by decide) (by decide)
    (by decide) (by decide) (by decide) (by decide) (by decide)
    (by decide) (by decide) (by decide)

end GitActivityTracer
